import Mathlib

/-!
Shallow embedding of `pytest_smart_runner/mapper.py` (class `TestMapper`) and
proofs about the test-impact mapping engine.

Modelling conventions:
* A filesystem path (`pathlib.Path`) is its list of parts (`Path.parts`),
  restricted to relative paths; `Path.relative_to` on relative paths is a
  lexical prefix check on parts.
* The filesystem visible to the mapper is a structure `FS`: `dirExists`
  models `Path.exists()` as used on test directories, and `file` models the
  outcome of `open` + `ast.parse` on a path: the file may be absent
  (`open` raises `FileNotFoundError`), unreadable or malformed
  (`ast.parse`/decoding raises `SyntaxError`/`UnicodeDecodeError`), or parsed
  into a tree of statements.
* Python `set` arguments (`changed_files`, `test_files`) become `List Path`
  arguments: a list fixes one of the unspecified iteration orders of the
  Python set, and every theorem is quantified over all lists, hence over all
  orders and duplications.
* Result sets become `Finset Path`; exceptions escaping a function become
  `Except PyExn`.
-/

/-- A filesystem path as its `parts` list, e.g. `["src", "pkg", "foo.py"]`. -/
abbrev FsPath := List String

/-- Statements of the parsed Python tree, as far as `ast.walk` in
`extract_imports` inspects them: `import a.b, c` nodes carry their alias
names, `from X import ...` nodes carry their optional module (none for a
relative import such as `from . import x`), and compound statements such as
function definitions carry a nested body that `ast.walk` also visits. -/
inductive PyStmt where
  | importStmt (names : List String)
  | importFrom (module : Option String)
  | funcDef (name : String) (body : List PyStmt)
  | other

/-- Outcome of opening and parsing one file, as seen by `extract_imports`. -/
inductive PyFile where
  | absent
  | unparseable
  | tree (stmts : List PyStmt)

/-- The filesystem state during one mapper invocation. -/
structure FS where
  dirExists : FsPath → Bool
  file : FsPath → PyFile

/-- Exceptions that escape the mapper. -/
inductive PyExn where
  | fileNotFound
deriving DecidableEq

deriving instance DecidableEq for Except

/-- Python `s.startswith(pre)`: `pre` is a prefix of `s`. (Implemented on
the character lists so that concrete instances evaluate in the kernel.) -/
def strStartsWith (s pre : String) : Bool :=
  pre.data.isPrefixOf s.data

/-- Python `s.endswith(suf)`: `suf` is a suffix of `s`. -/
def strEndsWith (s suf : String) : Bool :=
  suf.data.reverse.isPrefixOf s.data.reverse

/-- Python `s.replace('.py', '')` on the character list: delete every
non-overlapping occurrence of `.py`, scanning left to right. -/
def stripPyAll : List Char → List Char
  | '.' :: 'p' :: 'y' :: rest => stripPyAll rest
  | c :: rest => c :: stripPyAll rest
  | [] => []

/-- Python `'.'.join(parts)`. -/
def dotJoin : List String → String
  | [] => ""
  | [p] => p
  | p :: rest => p ++ "." ++ dotJoin rest

/-- Python `s.split('.')[0]`: the prefix of `s` before the first `'.'`. -/
def rootOf (s : String) : String :=
  ⟨s.data.takeWhile (fun c => !(c == '.'))⟩

/-- Collects, in tree order, the root module name of every `import` /
`from ... import` statement in a statement list, recursing into nested
bodies exactly as `ast.walk` visits every node of the tree
(mapper.py lines 62-71). -/
def stmtsImports : List PyStmt → List String
  | [] => []
  | .importStmt names :: rest => names.map rootOf ++ stmtsImports rest
  | .importFrom (some m) :: rest => rootOf m :: stmtsImports rest
  | .importFrom none :: rest => stmtsImports rest
  | .funcDef _ body :: rest => stmtsImports body ++ stmtsImports rest
  | .other :: rest => stmtsImports rest

/-- `TestMapper.extract_imports` (mapper.py lines 46-71): opening a missing
file raises `FileNotFoundError` (not caught by the
`except (SyntaxError, UnicodeDecodeError)` handler); a decode or parse
failure returns the empty set; otherwise the set of root names of all
imports found by walking the tree. -/
def extract_imports (fs : FS) (file_path : FsPath) : Except PyExn (Finset String) :=
  match fs.file file_path with
  | .absent => .error .fileNotFound
  | .unparseable => .ok ∅
  | .tree stmts => .ok (stmtsImports stmts).toFinset

/-- `pathlib.Path.relative_to` for relative paths: succeeds with the part
suffix exactly when the root's parts are a prefix, otherwise raises
`ValueError` (modelled as `none`). -/
def relative_to (p root : FsPath) : Option FsPath :=
  if root.isPrefixOf p then some (p.drop root.length) else none

/-- The shared `src`-stripping step of mapper.py lines 88-90 and 189-191:
drop the first part when it is the literal `src`. -/
def stripSrc : FsPath → FsPath
  | [] => []
  | p :: rest => if p = "src" then rest else p :: rest

/-- `TestMapper.get_module_path` (mapper.py lines 73-99): relativize to the
project root (`ValueError` gives `None`), strip a leading `src` part, strip
`.py` from the last part (Python `str.replace` removes every occurrence),
and dot-join; an empty part list gives `None`. -/
def get_module_path (project_root : FsPath) (changed_file : FsPath) : Option String :=
  match relative_to changed_file project_root with
  | none => none
  | some rel_path =>
    match stripSrc rel_path with
    | [] => none
    | parts =>
      some (dotJoin (parts.dropLast ++ [⟨stripPyAll (parts.getLastD "").data⟩]))

/-- `TestMapper._is_test_file` (mapper.py lines 153-156): the filename
starts with `test_` or ends with the literal `_test.py`. -/
def is_test_file (file_path : FsPath) : Bool :=
  let name := file_path.getLastD ""
  strStartsWith name "test_" || strEndsWith name "_test.py"

/-- `pathlib.Path.stem`: the filename with its last extension removed, where
an extension needs a `'.'` that is neither the first character nor followed
by nothing. -/
def pyStem (name : String) : String :=
  let cs := name.data
  match cs.reverse.findIdx? (fun c => c == '.') with
  | none => name
  | some j =>
    let i := cs.length - 1 - j
    if 0 < i ∧ i < cs.length - 1 then ⟨cs.take i⟩ else name

/-- `TestMapper._get_test_candidates` (mapper.py lines 158-200): for each of
`tests` and `test` that exists under the project root, and each of the
patterns `test_<stem>.py` and `<stem>_test.py`, emit the candidate directly
in that directory, and, when the source file relativizes to more than one
part after `src`-stripping, also in the mirrored subdirectory. -/
def get_test_candidates (fs : FS) (project_root : FsPath) (source_file : FsPath) :
    List FsPath :=
  let filename := pyStem (source_file.getLastD "")
  let patterns := ["test_" ++ filename ++ ".py", filename ++ "_test.py"]
  (["tests", "test"].filter (fun d => fs.dirExists (project_root ++ [d]))).flatMap
    (fun d =>
      patterns.flatMap (fun pattern =>
        (project_root ++ [d, pattern]) ::
        (match relative_to source_file project_root with
         | none => []
         | some rel_path =>
           let parts := stripSrc rel_path
           if parts.length > 1 then
             [project_root ++ (d :: parts.dropLast) ++ [pattern]]
           else [])))

/-- Strategy 1 loop of `find_affected_tests` (mapper.py lines 121-124):
add every changed file that is itself a test file. -/
def directScan : List FsPath → Finset FsPath → Finset FsPath
  | [], acc => acc
  | f :: rest, acc => directScan rest (if is_test_file f then insert f acc else acc)

/-- Inner loop of Strategy 2 (mapper.py lines 130-133): add every candidate
that is a member of the supplied test-file collection. -/
def candScan (test_files : List FsPath) : List FsPath → Finset FsPath → Finset FsPath
  | [], acc => acc
  | c :: rest, acc =>
    candScan test_files rest (if c ∈ test_files then insert c acc else acc)

/-- Strategy 2 loop of `find_affected_tests` (mapper.py lines 126-133):
for every changed file that is not itself a test file, scan its name-based
candidates. -/
def namingScan (fs : FS) (project_root : FsPath) (test_files : List FsPath) :
    List FsPath → Finset FsPath → Finset FsPath
  | [], acc => acc
  | f :: rest, acc =>
    namingScan fs project_root test_files rest
      (if is_test_file f then acc
       else candScan test_files (get_test_candidates fs project_root f) acc)

/-- Accumulation of `changed_modules` (mapper.py lines 136-140): the module
paths of the changed files on which `get_module_path` succeeds. -/
def changedModules (project_root : FsPath) (changed_files : List FsPath) : List String :=
  changed_files.filterMap (get_module_path project_root)

/-- Strategy 3 loop of `find_affected_tests` (mapper.py lines 142-149): for
every test file, extract its imports (a `FileNotFoundError` escapes here and
aborts the whole call) and add the test file when some changed module's root
segment is imported. -/
def importScan (fs : FS) (changed_modules : List String) :
    List FsPath → Finset FsPath → Except PyExn (Finset FsPath)
  | [], acc => .ok acc
  | t :: rest, acc =>
    match extract_imports fs t with
    | .error e => .error e
    | .ok imports =>
      importScan fs changed_modules rest
        (if changed_modules.any (fun m => decide (rootOf m ∈ imports))
         then insert t acc else acc)

/-- `TestMapper.find_affected_tests` (mapper.py lines 101-151) with an
explicitly supplied test-file collection: the three strategy loops run in
order over one accumulator set. -/
def find_affected_tests (fs : FS) (project_root : FsPath)
    (changed_files test_files : List FsPath) : Except PyExn (Finset FsPath) :=
  let a1 := directScan changed_files ∅
  let a2 := namingScan fs project_root test_files changed_files a1
  importScan fs (changedModules project_root changed_files) test_files a2

/-- Strategy A (direct edit) computed independently: the changed files that
are themselves test files. -/
def strategyA (changed_files : List FsPath) : Finset FsPath :=
  (changed_files.filter is_test_file).toFinset

/-- Strategy B (naming convention) computed independently: the supplied test
files that are a name-based candidate of some changed non-test file. -/
def strategyB (fs : FS) (project_root : FsPath)
    (changed_files test_files : List FsPath) : Finset FsPath :=
  (test_files.filter (fun t =>
    changed_files.any (fun f =>
      !is_test_file f && decide (t ∈ get_test_candidates fs project_root f)))).toFinset

/-- Strategy C (import reachability) computed independently: the import scan
started from the empty accumulator. -/
def strategyC (fs : FS) (project_root : FsPath)
    (changed_files test_files : List FsPath) : Except PyExn (Finset FsPath) :=
  importScan fs (changedModules project_root changed_files) test_files ∅

/-- The set of root segments of the resolvable changed files' module
identifiers, as a set (spec section 4.4, Strategy C). -/
def changedRootsSet (project_root : FsPath) (changed_files : List FsPath) :
    Finset String :=
  ((changedModules project_root changed_files).map rootOf).toFinset

/-- The test-file predicate as the spec phrases it: the filename starts with
`test_` or ends with `_test` before its extension, for any extension.
Used only to compare the code's predicate against the spec's words. -/
def spec_is_test_file (file_path : FsPath) : Bool :=
  let name := file_path.getLastD ""
  strStartsWith name "test_" || strEndsWith (pyStem name) "_test"

/-! Helper lemmas relating the accumulator loops to the independent
strategy sets. -/

theorem exceptMap_congr {ε α β : Type} {f g : α → β} (o : Except ε α)
    (h : ∀ a, f a = g a) : o.map f = o.map g := by
  cases o <;> simp [Except.map, h]

theorem exceptMap_map {ε α β γ : Type} (f : α → β) (g : β → γ) (o : Except ε α) :
    (o.map f).map g = o.map (fun a => g (f a)) := by
  cases o <;> simp [Except.map]

theorem directScan_eq (l : List FsPath) (acc : Finset FsPath) :
    directScan l acc = acc ∪ strategyA l := by
  induction l generalizing acc with
  | nil => simp [directScan, strategyA]
  | cons f rest ih =>
    by_cases h : is_test_file f
    · simp [directScan, h, ih, strategyA, List.filter_cons, Finset.insert_union,
        Finset.union_insert]
    · simp [directScan, h, ih, strategyA, List.filter_cons]

theorem candScan_eq (tests l : List FsPath) (acc : Finset FsPath) :
    candScan tests l acc = acc ∪ (l.filter (fun c => decide (c ∈ tests))).toFinset := by
  induction l generalizing acc with
  | nil => simp [candScan]
  | cons c rest ih =>
    by_cases h : c ∈ tests
    · simp [candScan, h, ih, List.filter_cons, Finset.insert_union, Finset.union_insert]
    · simp [candScan, h, ih, List.filter_cons]

theorem mem_strategyB (fs : FS) (root : FsPath) (changed tests : List FsPath)
    (t : FsPath) :
    t ∈ strategyB fs root changed tests ↔
      t ∈ tests ∧ ∃ f ∈ changed, is_test_file f = false ∧
        t ∈ get_test_candidates fs root f := by
  simp [strategyB, List.mem_filter, List.any_eq_true]

theorem namingScan_eq (fs : FS) (root : FsPath) (tests l : List FsPath)
    (acc : Finset FsPath) :
    namingScan fs root tests l acc = acc ∪ strategyB fs root l tests := by
  induction l generalizing acc with
  | nil => simp [namingScan, strategyB]
  | cons f rest ih =>
    by_cases h : is_test_file f = true
    · rw [namingScan, if_pos h, ih]
      have hB : strategyB fs root (f :: rest) tests = strategyB fs root rest tests := by
        unfold strategyB
        congr 1
        apply List.filter_congr
        intro t _
        simp [h]
      rw [hB]
    · have hf : is_test_file f = false := by simpa using h
      rw [namingScan, if_neg h, ih, candScan_eq, Finset.union_assoc]
      congr 1
      ext t
      simp only [Finset.mem_union, List.mem_toFinset, List.mem_filter,
        mem_strategyB, List.mem_cons, decide_eq_true_eq]
      constructor
      · rintro (⟨hc, ht⟩ | ⟨ht, f', hf', htest, hc⟩)
        · exact ⟨ht, f, Or.inl rfl, hf, hc⟩
        · exact ⟨ht, f', Or.inr hf', htest, hc⟩
      · rintro ⟨ht, f', hf' | hf', htest, hc⟩
        · exact Or.inl ⟨hf' ▸ hc, ht⟩
        · exact Or.inr ⟨ht, f', hf', htest, hc⟩

theorem importScan_cons_ok (fs : FS) (mods : List String) (t : FsPath)
    (rest : List FsPath) (acc : Finset FsPath) (imps : Finset String)
    (hx : extract_imports fs t = .ok imps) :
    importScan fs mods (t :: rest) acc =
      importScan fs mods rest
        (if (mods.any fun m => decide (rootOf m ∈ imps)) = true
         then insert t acc else acc) := by
  rw [importScan, hx]

theorem importScan_cons_err (fs : FS) (mods : List String) (t : FsPath)
    (rest : List FsPath) (acc : Finset FsPath) (e : PyExn)
    (hx : extract_imports fs t = .error e) :
    importScan fs mods (t :: rest) acc = .error e := by
  rw [importScan, hx]

theorem importScan_shift (fs : FS) (mods : List String) (l : List FsPath)
    (acc : Finset FsPath) :
    importScan fs mods l acc = (importScan fs mods l ∅).map (fun s => acc ∪ s) := by
  induction l generalizing acc with
  | nil => simp [importScan, Except.map]
  | cons t rest ih =>
    cases hx : extract_imports fs t with
    | error e => rw [importScan_cons_err fs mods t rest acc e hx,
        importScan_cons_err fs mods t rest ∅ e hx]; rfl
    | ok imps =>
      rw [importScan_cons_ok fs mods t rest acc imps hx,
        importScan_cons_ok fs mods t rest ∅ imps hx, ih,
        ih (if (mods.any fun m => decide (rootOf m ∈ imps)) = true
            then insert t ∅ else ∅),
        exceptMap_map]
      apply exceptMap_congr
      intro s
      by_cases hc : (mods.any fun m => decide (rootOf m ∈ imps)) = true
      · rw [if_pos hc, if_pos hc]
        ext x
        simp
        tauto
      · rw [if_neg hc, if_neg hc]
        simp

theorem find_affected_tests_eq (fs : FS) (root : FsPath)
    (changed tests : List FsPath) :
    find_affected_tests fs root changed tests =
      (strategyC fs root changed tests).map
        (fun c => strategyA changed ∪ strategyB fs root changed tests ∪ c) := by
  have h1 : find_affected_tests fs root changed tests =
      importScan fs (changedModules root changed) tests
        (namingScan fs root tests changed (directScan changed ∅)) := rfl
  rw [h1, directScan_eq, Finset.empty_union, namingScan_eq, importScan_shift]
  rfl

theorem importScan_acc_mono (fs : FS) (mods : List String) (l : List FsPath)
    (acc s : Finset FsPath) (h : importScan fs mods l acc = .ok s) : acc ⊆ s := by
  induction l generalizing acc with
  | nil =>
    simp only [importScan, Except.ok.injEq] at h
    exact h ▸ Finset.Subset.refl acc
  | cons t rest ih =>
    cases hx : extract_imports fs t with
    | error e => rw [importScan_cons_err fs mods t rest acc e hx] at h; cases h
    | ok imps =>
      rw [importScan_cons_ok fs mods t rest acc imps hx] at h
      refine Finset.Subset.trans ?_ (ih _ h)
      by_cases hc : (mods.any fun m => decide (rootOf m ∈ imps)) = true
      · rw [if_pos hc]; exact Finset.subset_insert t acc
      · rw [if_neg hc]

theorem importScan_subset (fs : FS) (mods : List String) (l : List FsPath)
    (acc s : Finset FsPath) (h : importScan fs mods l acc = .ok s) :
    s ⊆ acc ∪ l.toFinset := by
  induction l generalizing acc with
  | nil =>
    simp only [importScan, Except.ok.injEq] at h
    simp [← h]
  | cons t rest ih =>
    cases hx : extract_imports fs t with
    | error e => rw [importScan_cons_err fs mods t rest acc e hx] at h; cases h
    | ok imps =>
      rw [importScan_cons_ok fs mods t rest acc imps hx] at h
      have hsub := ih _ h
      intro x hxmem
      have hx2 := hsub hxmem
      simp only [Finset.mem_union, List.mem_toFinset, List.toFinset_cons,
        Finset.mem_insert] at hx2 ⊢
      by_cases hc : (mods.any fun m => decide (rootOf m ∈ imps)) = true
      · rw [if_pos hc] at hx2
        simp only [Finset.mem_insert] at hx2
        tauto
      · rw [if_neg hc] at hx2
        tauto

theorem importScan_mem (fs : FS) (mods : List String) (l : List FsPath)
    (acc s : Finset FsPath) (t : FsPath) (imps : Finset String)
    (h : importScan fs mods l acc = .ok s) (ht : t ∈ l)
    (hx : extract_imports fs t = .ok imps)
    (hc : (mods.any fun m => decide (rootOf m ∈ imps)) = true) : t ∈ s := by
  induction l generalizing acc with
  | nil => cases ht
  | cons u rest ih =>
    rcases List.mem_cons.mp ht with rfl | ht'
    · rw [importScan_cons_ok fs mods t rest acc imps hx, if_pos hc] at h
      exact importScan_acc_mono fs mods rest _ s h (Finset.mem_insert_self t acc)
    · cases hxu : extract_imports fs u with
      | error e => rw [importScan_cons_err fs mods u rest acc e hxu] at h; cases h
      | ok impsu =>
        rw [importScan_cons_ok fs mods u rest acc impsu hxu] at h
        exact ih _ h ht'

theorem importScan_total (fs : FS) (mods : List String) (l : List FsPath)
    (acc : Finset FsPath) (h : ∀ t ∈ l, fs.file t ≠ PyFile.absent) :
    ∃ s, importScan fs mods l acc = .ok s := by
  induction l generalizing acc with
  | nil => exact ⟨acc, rfl⟩
  | cons t rest ih =>
    have hrest : ∀ u ∈ rest, fs.file u ≠ PyFile.absent :=
      fun u hu => h u (List.mem_cons_of_mem _ hu)
    have hx : ∃ imps, extract_imports fs t = .ok imps := by
      cases hf : fs.file t with
      | absent => exact absurd hf (h t (List.mem_cons_self _ _))
      | unparseable => exact ⟨∅, by simp [extract_imports, hf]⟩
      | tree stmts => exact ⟨(stmtsImports stmts).toFinset, by simp [extract_imports, hf]⟩
    obtain ⟨imps, hx⟩ := hx
    rw [importScan_cons_ok fs mods t rest acc imps hx]
    exact ih _ hrest

theorem isPrefixOf_append_self (root l : List String) :
    root.isPrefixOf (root ++ l) = true := by
  induction root with
  | nil => simp [List.isPrefixOf]
  | cons a rest ih => simp [List.isPrefixOf, ih]

theorem relative_to_append (root l : FsPath) : relative_to (root ++ l) root = some l := by
  simp [relative_to, isPrefixOf_append_self, List.drop_left]

theorem pyStem_append_py (s : String) (h : s ≠ "") : pyStem (s ++ ".py") = s := by
  have hd : (s ++ ".py").data = s.data ++ ['.', 'p', 'y'] := by
    rw [String.data_append]
  have hne : s.data ≠ [] := by
    intro h0
    apply h
    cases s with
    | mk data =>
      cases h0
      rfl
  have hpos : 0 < s.data.length := List.length_pos.mpr hne
  have h1 : (s ++ ".py").data.reverse = 'y' :: 'p' :: '.' :: s.data.reverse := by
    rw [hd, List.reverse_append]
    rfl
  have h2 : ((s ++ ".py").data.reverse.findIdx? (fun c => c == '.')) = some 2 := by
    rw [h1]
    simp [List.findIdx?_cons]
  have h3 : (s ++ ".py").data.length = s.data.length + 3 := by
    rw [hd]
    simp
  simp only [pyStem, h2, h3]
  have hi : s.data.length + 3 - 1 - 2 = s.data.length := by omega
  rw [hi]
  rw [if_pos ⟨hpos, by omega⟩]
  rw [hd, List.take_left]

theorem rootOf_tests_dot (x : String) : rootOf ("tests" ++ "." ++ x) = "tests" := by
  have hd : ("tests" ++ "." ++ x).data = 't' :: 'e' :: 's' :: 't' :: 's' :: '.' :: x.data := by
    rw [String.data_append, String.data_append]
    rfl
  unfold rootOf
  rw [hd]
  simp [List.takeWhile]

theorem get_module_path_tests (root : FsPath) (name : String) :
    get_module_path root (root ++ ["tests", name]) =
      some ("tests" ++ "." ++ ⟨stripPyAll name.data⟩) := by
  simp [get_module_path, relative_to_append, stripSrc, dotJoin]

theorem find_ok_parts (fs : FS) (root : FsPath) (changed tests : List FsPath)
    (s : Finset FsPath) (h : find_affected_tests fs root changed tests = .ok s) :
    ∃ c, strategyC fs root changed tests = .ok c ∧
      s = strategyA changed ∪ strategyB fs root changed tests ∪ c := by
  rw [find_affected_tests_eq] at h
  cases hC : strategyC fs root changed tests with
  | error e => rw [hC] at h; cases h
  | ok c =>
    rw [hC] at h
    simp only [Except.map, Except.ok.injEq] at h
    exact ⟨c, rfl, h.symm⟩

/-! Concrete filesystem states used by the counterexamples and witnesses. -/

/-- A filesystem with no directories and no readable files: every `open`
raises `FileNotFoundError`. -/
def fsAllAbsent : FS where
  dirExists := fun _ => false
  file := fun _ => .absent

/-- A filesystem where the `tests` directory exists and every file fails to
parse (so each contributes an empty import set). -/
def fsUnparse : FS where
  dirExists := fun p => decide (p = ["tests"])
  file := fun _ => .unparseable

/-- A filesystem whose every file parses to a module whose only import
statement sits inside a function body. -/
def fsNested : FS where
  dirExists := fun _ => false
  file := fun _ => .tree [.funcDef "f" [.importStmt ["os"]]]

/-- A filesystem where the test file `tests/test_m.py` contains the single
statement `from pkg.sub import f` and every other file fails to parse. -/
def fsImp : FS where
  dirExists := fun _ => false
  file := fun p =>
    if p = ["tests", "test_m.py"] then .tree [.importFrom (some "pkg.sub")]
    else .unparseable

/-- A filesystem where the test file `tests/test_b.py` contains the single
statement `import tests` and every other file fails to parse. -/
def fsSelf : FS where
  dirExists := fun _ => false
  file := fun p =>
    if p = ["tests", "test_b.py"] then .tree [.importStmt ["tests"]]
    else .unparseable

/-! Claim theorems. -/

/-- C4: `get_module_path` maps `src/mypackage/module.py` under project root
`.` to `mypackage.module`, maps `mypackage/module.py` to the same, returns
the unresolvable marker (`none`) for a path not rooted under the project
root, and drops only a `src` segment in first position — a deeper `src`
segment is kept as a package name. -/
theorem claim_C4_resolution_purity :
    get_module_path [] ["src", "mypackage", "module.py"] = some "mypackage.module" ∧
    get_module_path [] ["mypackage", "module.py"] = some "mypackage.module" ∧
    get_module_path ["home", "proj"] ["other", "file.py"] = none ∧
    get_module_path [] ["pkg", "src", "mod.py"] = some "pkg.src.mod" :=
  ⟨by decide, by decide, by decide, by decide⟩

/-- C7 counterexample: `foo_test.txt` ends with `_test` before its
extension, so the claim's predicate accepts it, but the code's predicate
(`_is_test_file`) rejects it because it requires the literal suffix
`_test.py`. -/
theorem claim_C7_counterexample :
    is_test_file ["foo_test.txt"] = false ∧
    spec_is_test_file ["foo_test.txt"] = true :=
  ⟨by decide, by decide⟩

/-- C7 (amended): for every file path, the test-file predicate holds iff
the filename starts with `test_` or ends with the literal suffix
`_test.py`; hence `foo_test.py` satisfies it, while `foo_test.<ext>` for
any other extension (e.g. `foo_test.txt`) does not. -/
theorem claim_C7_test_file_predicate :
    (∀ (parts : List String) (name : String),
      is_test_file (parts ++ [name]) =
        (strStartsWith name "test_" || strEndsWith name "_test.py")) ∧
    is_test_file ["pkg", "foo_test.py"] = true ∧
    is_test_file ["pkg", "foo_test.txt"] = false := by
  refine ⟨?_, by decide, by decide⟩
  intro parts name
  simp [is_test_file, List.getLastD_concat]

/-- C5 counterexample: the two distinct paths `src/pkg/foo.py` and
`pkg/foo.py`, both under project root `.`, resolve to the same module
identifier `pkg.foo`, so the derivation is not injective. -/
theorem claim_C5_counterexample :
    get_module_path [] ["src", "pkg", "foo.py"] = some "pkg.foo" ∧
    get_module_path [] ["pkg", "foo.py"] = some "pkg.foo" ∧
    (["src", "pkg", "foo.py"] : FsPath) ≠ ["pkg", "foo.py"] :=
  ⟨by decide, by decide, by decide⟩

/-- C5 (amended): the derivation of a module identifier is not injective:
for every project root and every non-empty relative path that does not
start with the segment `src`, the path with a `src` segment prefixed and
the path without it are distinct file paths under the project root that
resolve to the same module identifier. -/
theorem claim_C5_module_id_not_injective :
    ∀ (root rel : FsPath), rel ≠ [] → rel.head? ≠ some "src" →
      get_module_path root (root ++ "src" :: rel) =
        get_module_path root (root ++ rel) ∧
      root ++ "src" :: rel ≠ root ++ rel := by
  intro root rel h1 h2
  constructor
  · have hs1 : stripSrc ("src" :: rel) = rel := by simp [stripSrc]
    have hs2 : stripSrc rel = rel := by
      cases rel with
      | nil => rfl
      | cons a t =>
        have ha : a ≠ "src" := by
          intro hh
          apply h2
          rw [hh]
          rfl
        simp [stripSrc, ha]
    simp only [get_module_path, relative_to_append, hs1, hs2]
  · intro he
    have hlen := congrArg List.length he
    simp only [List.length_append, List.length_cons] at hlen
    omega

/-- C5 amended witness at root `.`, rel `pkg/foo.py`. -/
theorem claim_C5_witness :
    get_module_path [] ([] ++ "src" :: ["pkg", "foo.py"]) =
      get_module_path [] ([] ++ ["pkg", "foo.py"]) ∧
    ([] : FsPath) ++ "src" :: ["pkg", "foo.py"] ≠ [] ++ ["pkg", "foo.py"] :=
  claim_C5_module_id_not_injective [] ["pkg", "foo.py"] (by decide) (by decide)

/-- C6 counterexample: a file whose only import statement sits inside a
function body yields the import set `{os}`, not the empty set, because
`ast.walk` visits nested bodies. -/
theorem claim_C6_counterexample :
    extract_imports fsNested ["mod.py"] = .ok {"os"} ∧
    ({"os"} : Finset String) ≠ (∅ : Finset String) := by
  constructor
  · simp [extract_imports, fsNested, stmtsImports, rootOf]
  · decide

/-- C6 (amended): `extract_imports` captures import statements at every
nesting depth, not only top-level ones: the imports of a function body
contribute exactly as if they stood at top level (so a module whose imports
all sit inside function bodies yields those imports, not the empty set);
relative imports with no module name contribute nothing in all cases. -/
theorem claim_C6_walk_captures_nested :
    (∀ (fs : FS) (p : FsPath) (n : String) (body rest : List PyStmt),
        fs.file p = .tree (.funcDef n body :: rest) →
        extract_imports fs p = .ok (stmtsImports body ++ stmtsImports rest).toFinset) ∧
    (∀ (fs : FS) (p : FsPath) (rest : List PyStmt),
        fs.file p = .tree (.importFrom none :: rest) →
        extract_imports fs p = .ok (stmtsImports rest).toFinset) := by
  constructor
  · intro fs p n body rest hf
    simp [extract_imports, hf, stmtsImports]
  · intro fs p rest hf
    simp [extract_imports, hf, stmtsImports]

/-- C6 amended witness on the concrete nested-import filesystem. -/
theorem claim_C6_witness :
    extract_imports fsNested ["mod.py"] =
      .ok (stmtsImports [PyStmt.importStmt ["os"]] ++ stmtsImports []).toFinset :=
  claim_C6_walk_captures_nested.1 fsNested ["mod.py"] "f" [PyStmt.importStmt ["os"]] [] rfl

/-- C1 counterexample: with every file missing, `find_affected_tests` on a
non-empty test-file set raises `FileNotFoundError` (the
`except (SyntaxError, UnicodeDecodeError)` handler does not catch it), and
`extract_imports` on a missing file propagates the same exception instead
of contributing an empty set. -/
theorem claim_C1_counterexample :
    find_affected_tests fsAllAbsent [] [] [["tests", "test_a.py"]]
      = .error .fileNotFound ∧
    extract_imports fsAllAbsent ["tests", "test_a.py"] = .error .fileNotFound :=
  ⟨by decide, by decide⟩

/-- C1 (amended): `find_affected_tests` returns a set and never raises
provided every supplied test file can be opened; a parse or decode failure
on an individual file makes `extract_imports` contribute an empty set for
that file while processing continues, but a missing file raises
`FileNotFoundError`, which propagates. -/
theorem claim_C1_graceful_unless_missing :
    ∀ (fs : FS) (root : FsPath) (changed tests : List FsPath),
      (∀ t ∈ tests, fs.file t ≠ PyFile.absent) →
      (∃ s, find_affected_tests fs root changed tests = .ok s) ∧
      ∀ p, fs.file p = PyFile.unparseable → extract_imports fs p = .ok ∅ := by
  intro fs root changed tests h
  refine ⟨?_, ?_⟩
  · exact importScan_total fs (changedModules root changed) tests
      (namingScan fs root tests changed (directScan changed ∅)) h
  · intro p hp
    simp [extract_imports, hp]

/-- C1 amended witness: unparseable (but present) files never abort the
call. -/
theorem claim_C1_witness :
    ∃ s, find_affected_tests fsUnparse [] [["src", "a.py"]] [["tests", "test_b.py"]]
      = .ok s :=
  (claim_C1_graceful_unless_missing fsUnparse [] [["src", "a.py"]]
    [["tests", "test_b.py"]] (fun t _ hc => by simp [fsUnparse] at hc)).1

/-- C2: `find_affected_tests` equals the union of the three strategies
computed independently (stated at the `Except` level, so erroring runs
agree as well), and every changed file satisfying the test-file naming
predicate is a member of any successful result, even when it is absent
from the supplied test-file collection. -/
theorem claim_C2_monotonic_union :
    ∀ (fs : FS) (root : FsPath) (changed tests : List FsPath),
      find_affected_tests fs root changed tests =
        (strategyC fs root changed tests).map
          (fun c => strategyA changed ∪ strategyB fs root changed tests ∪ c) ∧
      ∀ (f : FsPath) (s : Finset FsPath), f ∈ changed → is_test_file f = true →
        find_affected_tests fs root changed tests = .ok s → f ∈ s := by
  intro fs root changed tests
  refine ⟨find_affected_tests_eq fs root changed tests, ?_⟩
  intro f s hf htest hok
  obtain ⟨c, hC, hs⟩ := find_ok_parts fs root changed tests s hok
  rw [hs]
  apply Finset.mem_union_left
  apply Finset.mem_union_left
  simp [strategyA, List.mem_filter, hf, htest]

/-- C2 witness: a changed test file appears in the result although the
test-file collection is empty. -/
theorem claim_C2_witness :
    (["test_x.py"] : FsPath) ∈ ({["test_x.py"]} : Finset FsPath) :=
  (claim_C2_monotonic_union fsAllAbsent [] [["test_x.py"]] []).2 ["test_x.py"]
    {["test_x.py"]} (by decide) (by decide) (by decide)

/-- C3: any successful result of `find_affected_tests` is a subset of the
union of the supplied test-file collection and the changed files that
satisfy the test-file naming predicate. -/
theorem claim_C3_no_false_bleed :
    ∀ (fs : FS) (root : FsPath) (changed tests : List FsPath) (s : Finset FsPath),
      find_affected_tests fs root changed tests = .ok s →
      s ⊆ tests.toFinset ∪ (changed.filter is_test_file).toFinset := by
  intro fs root changed tests s hok
  obtain ⟨c, hC, hs⟩ := find_ok_parts fs root changed tests s hok
  rw [hs]
  intro x hx
  simp only [Finset.mem_union] at hx ⊢
  rcases hx with (hx | hx) | hx
  · right
    simpa [strategyA] using hx
  · left
    rcases (mem_strategyB fs root changed tests x).mp hx with ⟨hxt, _⟩
    exact List.mem_toFinset.mpr hxt
  · left
    have hsub := importScan_subset fs (changedModules root changed) tests ∅ c hC
    have hxm := hsub hx
    simpa using hxm

/-- C3 witness at a concrete run. -/
theorem claim_C3_witness :
    ({["test_x.py"]} : Finset FsPath) ⊆
      ([] : List FsPath).toFinset ∪ ([["test_x.py"]].filter is_test_file).toFinset :=
  claim_C3_no_false_bleed fsAllAbsent [] [["test_x.py"]] [] {["test_x.py"]} (by decide)

/-- C9: every supplied test file whose extracted import set meets the set
of root segments of the resolvable changed files' module identifiers is in
any successful result of `find_affected_tests`; and import extraction keeps
only the first dotted segment, so `from pkg.sub import f` contributes
`pkg`. -/
theorem claim_C9_import_reachability_sound :
    (∀ (fs : FS) (root : FsPath) (changed tests : List FsPath) (s : Finset FsPath)
        (t : FsPath) (imps : Finset String),
        find_affected_tests fs root changed tests = .ok s →
        t ∈ tests →
        extract_imports fs t = .ok imps →
        (∃ r ∈ changedRootsSet root changed, r ∈ imps) →
        t ∈ s) ∧
    stmtsImports [.importFrom (some "pkg.sub")] = ["pkg"] := by
  constructor
  · intro fs root changed tests s t imps hok ht hx hr
    obtain ⟨c, hC, hs⟩ := find_ok_parts fs root changed tests s hok
    rw [hs]
    apply Finset.mem_union_right
    have hc : ((changedModules root changed).any
        fun m => decide (rootOf m ∈ imps)) = true := by
      obtain ⟨r, hrmem, hrimp⟩ := hr
      simp only [changedRootsSet, List.mem_toFinset, List.mem_map] at hrmem
      obtain ⟨m, hm, rfl⟩ := hrmem
      simp only [List.any_eq_true, decide_eq_true_eq]
      exact ⟨m, hm, hrimp⟩
    exact importScan_mem fs (changedModules root changed) tests ∅ c t imps hC ht hx hc
  · simp [stmtsImports]
    decide

/-- C9 witness: changing `src/pkg/foo.py` selects a test whose only
statement is `from pkg.sub import f`. -/
theorem claim_C9_witness :
    (["tests", "test_m.py"] : FsPath) ∈ ({["tests", "test_m.py"]} : Finset FsPath) :=
  claim_C9_import_reachability_sound.1 fsImp [] [["src", "pkg", "foo.py"]]
    [["tests", "test_m.py"]] {["tests", "test_m.py"]} ["tests", "test_m.py"] {"pkg"}
    (by simp [find_affected_tests, directScan, namingScan, candScan, importScan,
      extract_imports, fsImp, changedModules, get_module_path, relative_to, stripSrc,
      get_test_candidates, stmtsImports, rootOf, is_test_file, strStartsWith,
      strEndsWith, stripPyAll, dotJoin, List.isPrefixOf])
    (by decide)
    (by simp [extract_imports, fsImp, stmtsImports, rootOf])
    (by decide)

/-- C10: a changed file that is itself a test file still contributes its
module root to Strategy C — `get_module_path` on `tests/<name>` always has
root segment `tests` — so a supplied test file whose imports include the
name `tests` is selected even when no non-test source file changed. -/
theorem claim_C10_changed_test_contributes_root :
    (∀ (fs : FS) (root : FsPath) (foo : String) (changed tests : List FsPath)
        (s : Finset FsPath) (t : FsPath) (imps : Finset String),
        (root ++ ["tests", "test_" ++ foo ++ ".py"]) ∈ changed →
        find_affected_tests fs root changed tests = .ok s →
        t ∈ tests →
        extract_imports fs t = .ok imps →
        "tests" ∈ imps →
        t ∈ s) ∧
    (∀ (root : FsPath) (name : String),
        (get_module_path root (root ++ ["tests", name])).map rootOf = some "tests") := by
  constructor
  · intro fs root foo changed tests s t imps hcf hok ht hx himp
    obtain ⟨c, hC, hs⟩ := find_ok_parts fs root changed tests s hok
    rw [hs]
    apply Finset.mem_union_right
    have hm : ("tests" ++ "." ++ (⟨stripPyAll ("test_" ++ foo ++ ".py").data⟩ : String))
        ∈ changedModules root changed := by
      apply List.mem_filterMap.mpr
      exact ⟨_, hcf, get_module_path_tests root ("test_" ++ foo ++ ".py")⟩
    have hc : ((changedModules root changed).any
        fun m => decide (rootOf m ∈ imps)) = true := by
      simp only [List.any_eq_true, decide_eq_true_eq]
      refine ⟨_, hm, ?_⟩
      rw [rootOf_tests_dot]
      exact himp
    exact importScan_mem fs (changedModules root changed) tests ∅ c t imps hC ht hx hc
  · intro root name
    rw [get_module_path_tests root name, Option.map_some']
    exact congrArg some (rootOf_tests_dot _)

/-- C10 witness: changing `tests/test_a.py` alone selects `tests/test_b.py`,
whose only statement is `import tests`. -/
theorem claim_C10_witness :
    (["tests", "test_b.py"] : FsPath) ∈
      ({["tests", "test_b.py"], ["tests", "test_a.py"]} : Finset FsPath) :=
  claim_C10_changed_test_contributes_root.1 fsSelf [] "a" [["tests", "test_a.py"]]
    [["tests", "test_b.py"]] {["tests", "test_b.py"], ["tests", "test_a.py"]}
    ["tests", "test_b.py"] {"tests"}
    (by decide)
    (by simp [find_affected_tests, directScan, namingScan, candScan, importScan,
      extract_imports, fsSelf, changedModules, get_module_path, relative_to, stripSrc,
      get_test_candidates, stmtsImports, rootOf, is_test_file, strStartsWith,
      strEndsWith, stripPyAll, dotJoin, List.isPrefixOf])
    (by decide)
    (by simp [extract_imports, fsSelf, stmtsImports, rootOf])
    (by decide)

theorem candidate_mem (fs : FS) (root : FsPath) (pkg foo : String)
    (hfoo : foo ≠ "") (hdir : fs.dirExists (root ++ ["tests"]) = true) :
    (root ++ ["tests", pkg, "test_" ++ foo ++ ".py"]) ∈
      get_test_candidates fs root (root ++ ["src", pkg, foo ++ ".py"]) := by
  have hlast : (root ++ ["src", pkg, foo ++ ".py"]).getLastD "" = foo ++ ".py" := by
    have hsplit : root ++ ["src", pkg, foo ++ ".py"]
        = (root ++ ["src", pkg]) ++ [foo ++ ".py"] := by simp
    rw [hsplit, List.getLastD_concat]
  simp only [get_test_candidates, hlast, pyStem_append_py foo hfoo]
  apply List.mem_flatMap.mpr
  refine ⟨"tests", List.mem_filter.mpr ⟨by simp, hdir⟩, ?_⟩
  apply List.mem_flatMap.mpr
  refine ⟨"test_" ++ foo ++ ".py", by simp, ?_⟩
  simp only [relative_to_append, stripSrc, List.mem_cons]
  right
  simp [stripSrc]

/-- C8: for a changed non-test file `src/pkg/foo.py` whose `tests`
directory exists, and a supplied test-file collection containing
`tests/pkg/test_foo.py`, any successful result of `find_affected_tests`
contains `tests/pkg/test_foo.py`: Strategy B mirrors the changed file's
directory structure (with the leading `src` stripped) inside each
configured test directory. -/
theorem claim_C8_naming_soundness :
    ∀ (fs : FS) (root : FsPath) (pkg foo : String) (changed tests : List FsPath)
      (s : Finset FsPath),
      foo ≠ "" →
      fs.dirExists (root ++ ["tests"]) = true →
      (root ++ ["src", pkg, foo ++ ".py"]) ∈ changed →
      is_test_file (root ++ ["src", pkg, foo ++ ".py"]) = false →
      (root ++ ["tests", pkg, "test_" ++ foo ++ ".py"]) ∈ tests →
      find_affected_tests fs root changed tests = .ok s →
      (root ++ ["tests", pkg, "test_" ++ foo ++ ".py"]) ∈ s := by
  intro fs root pkg foo changed tests s hfoo hdir hcf hnottest hmem hok
  obtain ⟨c, hC, hs⟩ := find_ok_parts fs root changed tests s hok
  rw [hs]
  apply Finset.mem_union_left
  apply Finset.mem_union_right
  apply (mem_strategyB fs root changed tests _).mpr
  exact ⟨hmem, root ++ ["src", pkg, foo ++ ".py"], hcf, hnottest,
    candidate_mem fs root pkg foo hfoo hdir⟩

/-- C8 witness on the concrete filesystem whose `tests` directory exists. -/
theorem claim_C8_witness :
    (["tests", "pkg", "test_foo.py"] : FsPath) ∈
      ({["tests", "pkg", "test_foo.py"]} : Finset FsPath) :=
  claim_C8_naming_soundness fsUnparse [] "pkg" "foo" [["src", "pkg", "foo.py"]]
    [["tests", "pkg", "test_foo.py"]] {["tests", "pkg", "test_foo.py"]}
    (by decide) (by decide) (by decide) (by decide) (by decide) (by decide)
